import Mathlib

/-!
Shallow embedding of the event-store contract exercised by `src/t1.py`.

The repository's only source file is a client script driving an external
event store (append to named streams, optimistic concurrency, global
commit positions, catch-up subscriptions).  The store itself is not part
of the repository's sources, so its operations are modelled here from the
specification, and the script's scenario (two appends, a read, a catch-up
subscription consumed until the second returned commit position) is
embedded on top of that model.
-/

namespace EventStore

/-- Modelled from the spec: a new event as supplied by the caller at append
time: caller-supplied unique `id`, string `type` tag, opaque byte payload
`data` (bytes as naturals). -/
structure NewEvent where
  id : Nat
  type : String
  data : List Nat
deriving DecidableEq

/-- Modelled from the spec: a recorded event: `id`, `type`, `data` preserved
from the `NewEvent`, plus the owning `stream_name`, the zero-based
`stream_position` within its stream and the store-global `commit_position`,
both assigned at commit time. -/
structure RecordedEvent where
  id : Nat
  type : String
  data : List Nat
  stream_name : String
  stream_position : Nat
  commit_position : Nat
deriving DecidableEq

/-- Modelled from the spec: the `expected_version` argument of append:
`no_stream` (stream must not yet exist), `any` (no check), or an explicit
integer current version. -/
inductive StreamState where
  | no_stream : StreamState
  | any : StreamState
  | exact : Nat → StreamState
deriving DecidableEq

/-- Modelled from the spec: the errors an append can fail with:
`ConcurrencyConflict` (expected version does not match the stream's actual
current version) and `InvalidRequest` (malformed batch: empty batch or an
event with empty type, rejected before any position allocation). -/
inductive AppendError where
  | ConcurrencyConflict : AppendError
  | InvalidRequest : AppendError
deriving DecidableEq

/-- Modelled from the spec: the state of the store: the global log of
recorded events in commit order, and the global sequencer's counter
(the next commit position to hand out). -/
structure Store where
  log : List RecordedEvent
  nextCommit : Nat
deriving DecidableEq

/-- The empty store: no events recorded, sequencer at its first value. -/
def Store.init : Store := { log := [], nextCommit := 0 }

/-- The recorded events of one stream, in commit order (the order they
appear in the global log). -/
def streamEvents (s : Store) (name : String) : List RecordedEvent :=
  s.log.filter (fun e => e.stream_name == name)

/-- Number of events currently recorded in a stream. -/
def streamLen (s : Store) (name : String) : Nat :=
  (streamEvents s name).length

/-- Modelled from the spec: the stream's current version: the
`stream_position` of its last recorded event, or `none` ("no stream") if
the stream has never been written to. -/
def currentVersion (s : Store) (name : String) : Option Nat :=
  match streamLen s name with
  | 0 => none
  | Nat.succ k => some k

/-- Modelled from the spec: whether an `expected_version` matches the
stream's actual current version. -/
def versionMatches (expected : StreamState) (cv : Option Nat) : Bool :=
  match expected with
  | StreamState.no_stream => cv == none
  | StreamState.any => true
  | StreamState.exact v => cv == some v

/-- Modelled from the spec: a batch is well-formed when it is non-empty and
every event has a non-empty type. -/
def validBatch (events : List NewEvent) : Bool :=
  !events.isEmpty && events.all (fun e => !(e.type == ""))

/-- Modelled from the spec: record a batch of new events for stream `name`,
allocating consecutive stream positions from `basePos` and consecutive
commit positions from `commitBase` (one commit position per event). -/
def recordBatch (name : String) (events : List NewEvent)
    (basePos commitBase : Nat) : List RecordedEvent :=
  match events with
  | [] => []
  | e :: rest =>
      { id := e.id, type := e.type, data := e.data, stream_name := name,
        stream_position := basePos, commit_position := commitBase } ::
        recordBatch name rest (basePos + 1) (commitBase + 1)

/-- Modelled from the spec: `append_to_stream`.  Rejects a malformed batch
with `InvalidRequest` before any position allocation; validates the
expected version against the stream's actual current version, failing with
`ConcurrencyConflict` on mismatch; on success appends the recorded batch to
the global log, advances the sequencer by the batch length, and returns the
commit position of the last event of the batch.  A failed append returns
the store unchanged. -/
def append_to_stream (s : Store) (name : String) (expected : StreamState)
    (events : List NewEvent) : Store × Except AppendError Nat :=
  if validBatch events = true then
    if versionMatches expected (currentVersion s name) = true then
      ({ log := s.log ++ recordBatch name events (streamLen s name) s.nextCommit,
         nextCommit := s.nextCommit + events.length },
       Except.ok (s.nextCommit + events.length - 1))
    else (s, Except.error AppendError.ConcurrencyConflict)
  else (s, Except.error AppendError.InvalidRequest)

/-- Modelled from the spec: `read_stream` returns the stream's currently
recorded events as a finite sequence in stream order; a stream with no
recorded events reads as the empty sequence. -/
def read_stream (s : Store) (name : String) : List RecordedEvent :=
  streamEvents s name

/-- Whether an event is delivered by a subscription started from the given
position: from the start (`none`) everything is delivered; from a specific
commit position `p` only events with `commit_position > p` (resumption is
exclusive of `p`). -/
def matchesFrom (p : Option Nat) (e : RecordedEvent) : Bool :=
  match p with
  | none => true
  | some q => decide (q < e.commit_position)

/-- Modelled from the spec: the sequence of events a subscription started
from `p` has delivered once the store has reached state `s`: all committed
events past the starting position, in commit order. -/
def subscribeFrom (s : Store) (p : Option Nat) : List RecordedEvent :=
  s.log.filter (matchesFrom p)

/-- Modelled from the spec: `subscribe_to_all()` with no starting position:
delivery begins from the very first event ever committed. -/
def subscribe_to_all (s : Store) : List RecordedEvent :=
  subscribeFrom s none

/-- The script's consumption loop over a catch-up subscription: collect each
delivered event in turn and break immediately after the event whose
`commit_position` equals the given value. -/
def takeUntilCommit (cp : Nat) : List RecordedEvent → List RecordedEvent
  | [] => []
  | e :: rest =>
      if e.commit_position == cp then [e] else e :: takeUntilCommit cp rest

/-- A single observable transition of the store: one successful append. -/
inductive Step : Store → Store → Prop where
  | append (s s' : Store) (name : String) (expected : StreamState)
      (events : List NewEvent) (cp : Nat)
      (h : append_to_stream s name expected events = (s', Except.ok cp)) :
      Step s s'

/-- Reachability: any finite sequence of successful appends. -/
def Reachable : Store → Store → Prop :=
  Relation.ReflTransGen Step

/-- Payload of the script's first event, the bytes of
`b'\x7b"order_number": "123456"\x7d'`. -/
def data1 : List Nat :=
  [123, 34, 111, 114, 100, 101, 114, 95, 110, 117, 109, 98, 101, 114,
   34, 58, 32, 34, 49, 50, 51, 52, 53, 54, 34, 125]

/-- Payload of the script's second and third events, the bytes of
`b'\x7b\x7d'`. -/
def data2 : List Nat := [123, 125]

/-- The script's first new event. -/
def e1 (i : Nat) : NewEvent := { id := i, type := "OrderCreated", data := data1 }

/-- The script's second new event. -/
def e2 (i : Nat) : NewEvent := { id := i, type := "OrderSubmitted", data := data2 }

/-- The script's third new event. -/
def e3 (i : Nat) : NewEvent := { id := i, type := "OrderCancelled", data := data2 }

/-- The script's stream name (a fresh uuid in the script; any fresh name). -/
def scriptStream : String := "s1"

/-- Store state after the script's first append (events 1 and 2 with
`expected_version = no_stream` on a fresh store). -/
def scriptState1 (i1 i2 : Nat) : Store :=
  (append_to_stream Store.init scriptStream StreamState.no_stream [e1 i1, e2 i2]).1

/-- Store state after the script's second append (event 3 with
`expected_version = 1`). -/
def scriptState2 (i1 i2 i3 : Nat) : Store :=
  (append_to_stream (scriptState1 i1 i2) scriptStream (StreamState.exact 1) [e3 i3]).1

/-! ### Basic lemmas about `recordBatch` -/

theorem recordBatch_length (name : String) (es : List NewEvent) (b c : Nat) :
    (recordBatch name es b c).length = es.length := by
  induction es generalizing b c with
  | nil => rfl
  | cons e rest ih => simp [recordBatch, ih]

theorem recordBatch_map_streamPos (name : String) (es : List NewEvent) (b c : Nat) :
    (recordBatch name es b c).map RecordedEvent.stream_position = List.range' b es.length := by
  induction es generalizing b c with
  | nil => rfl
  | cons e rest ih => simp [recordBatch, ih, List.range'_succ]

theorem recordBatch_map_commitPos (name : String) (es : List NewEvent) (b c : Nat) :
    (recordBatch name es b c).map RecordedEvent.commit_position = List.range' c es.length := by
  induction es generalizing b c with
  | nil => rfl
  | cons e rest ih => simp [recordBatch, ih, List.range'_succ]

theorem recordBatch_map_payload (name : String) (es : List NewEvent) (b c : Nat) :
    (recordBatch name es b c).map (fun e => (e.id, e.type, e.data))
      = es.map (fun e => (e.id, e.type, e.data)) := by
  induction es generalizing b c with
  | nil => rfl
  | cons e rest ih => simp [recordBatch, ih]

theorem recordBatch_stream_name (name : String) (es : List NewEvent) (b c : Nat) :
    ∀ e ∈ recordBatch name es b c, e.stream_name = name := by
  induction es generalizing b c with
  | nil => intro e h; cases h
  | cons e rest ih =>
      intro x hx
      rcases List.mem_cons.mp hx with rfl | hx
      · rfl
      · exact ih (b + 1) (c + 1) x hx

theorem recordBatch_commit_bounds (name : String) (es : List NewEvent) (b c : Nat) :
    ∀ e ∈ recordBatch name es b c,
      c ≤ e.commit_position ∧ e.commit_position < c + es.length := by
  intro e he
  have : e.commit_position ∈ (recordBatch name es b c).map RecordedEvent.commit_position :=
    List.mem_map_of_mem _ he
  rw [recordBatch_map_commitPos] at this
  exact List.mem_range'_1.mp this

theorem recordBatch_filter_self (name : String) (es : List NewEvent) (b c : Nat) :
    (recordBatch name es b c).filter (fun e => e.stream_name == name)
      = recordBatch name es b c := by
  apply List.filter_eq_self.mpr
  intro e he
  simpa using recordBatch_stream_name name es b c e he

theorem recordBatch_filter_ne (name m : String) (es : List NewEvent) (b c : Nat)
    (h : m ≠ name) :
    (recordBatch name es b c).filter (fun e => e.stream_name == m) = [] := by
  apply List.filter_eq_nil_iff.mpr
  intro e he
  have hn := recordBatch_stream_name name es b c e he
  simp [hn]
  exact fun hc => h hc.symm

theorem recordBatch_ne_nil (name : String) (es : List NewEvent) (b c : Nat)
    (h : es ≠ []) : recordBatch name es b c ≠ [] := by
  cases es with
  | nil => exact absurd rfl h
  | cons e rest => simp [recordBatch]

theorem recordBatch_getLast_commit (name : String) (es : List NewEvent) (b c : Nat) :
    ((recordBatch name es b c).getLast?).map RecordedEvent.commit_position
      = if es.length = 0 then none else some (c + es.length - 1) := by
  rw [← List.getLast?_map, recordBatch_map_commitPos]
  exact List.getLast?_range' es.length

/-! ### Unfolding lemmas for `append_to_stream` -/

theorem validBatch_ne_nil {es : List NewEvent} (h : validBatch es = true) : es ≠ [] := by
  intro hnil
  subst hnil
  simp [validBatch] at h

theorem validBatch_length_pos {es : List NewEvent} (h : validBatch es = true) :
    1 ≤ es.length := by
  have := validBatch_ne_nil h
  cases es with
  | nil => exact absurd rfl this
  | cons e rest => simp

theorem append_ok {s s' : Store} {name : String} {exp : StreamState}
    {es : List NewEvent} {cp : Nat}
    (h : append_to_stream s name exp es = (s', Except.ok cp)) :
    validBatch es = true
  ∧ versionMatches exp (currentVersion s name) = true
  ∧ s'.log = s.log ++ recordBatch name es (streamLen s name) s.nextCommit
  ∧ s'.nextCommit = s.nextCommit + es.length
  ∧ cp = s.nextCommit + es.length - 1 := by
  unfold append_to_stream at h
  split at h
  · split at h
    · next hv hm =>
        injection h with h1 h2
        injection h2 with h3
        subst h1
        exact ⟨hv, hm, rfl, rfl, h3.symm⟩
    · injection h with h1 h2
      exact absurd h2 (by simp)
  · injection h with h1 h2
    exact absurd h2 (by simp)

theorem append_fail_eq {s : Store} {name : String} {exp : StreamState}
    {es : List NewEvent}
    (h : ((append_to_stream s name exp es).2).isOk = false) :
    (append_to_stream s name exp es).1 = s := by
  by_cases hv : validBatch es = true
  · by_cases hm : versionMatches exp (currentVersion s name) = true
    · exfalso
      unfold append_to_stream at h
      rw [if_pos hv, if_pos hm] at h
      simp [Except.isOk, Except.toBool] at h
    · unfold append_to_stream
      rw [if_pos hv, if_neg hm]
  · unfold append_to_stream
    rw [if_neg hv]

/-! ### How a successful append changes the streams -/

theorem streamEvents_append_same {s s' : Store} {name : String} {exp : StreamState}
    {es : List NewEvent} {cp : Nat}
    (h : append_to_stream s name exp es = (s', Except.ok cp)) :
    streamEvents s' name
      = streamEvents s name ++ recordBatch name es (streamLen s name) s.nextCommit := by
  obtain ⟨_, _, hlog, _, _⟩ := append_ok h
  unfold streamEvents
  rw [hlog, List.filter_append, recordBatch_filter_self]

theorem streamEvents_append_other {s s' : Store} {name m : String} {exp : StreamState}
    {es : List NewEvent} {cp : Nat}
    (h : append_to_stream s name exp es = (s', Except.ok cp)) (hne : m ≠ name) :
    streamEvents s' m = streamEvents s m := by
  obtain ⟨_, _, hlog, _, _⟩ := append_ok h
  unfold streamEvents
  rw [hlog, List.filter_append, recordBatch_filter_ne name m _ _ _ hne, List.append_nil]

/-! ### Reachability lemmas -/

theorem Step.nextCommit_mono {s s' : Store} (h : Step s s') :
    s.nextCommit ≤ s'.nextCommit := by
  rcases h with ⟨name, exp, es, cp, h⟩
  obtain ⟨_, _, _, hnc, _⟩ := append_ok h
  omega

theorem Step.log_grows {s s' : Store} (h : Step s s') :
    ∃ t, s'.log = s.log ++ t
       ∧ ∀ e ∈ t, s.nextCommit ≤ e.commit_position
                ∧ e.commit_position < s'.nextCommit := by
  rcases h with ⟨name, exp, es, cp, h⟩
  obtain ⟨_, _, hlog, hnc, _⟩ := append_ok h
  refine ⟨_, hlog, fun e he => ?_⟩
  have := recordBatch_commit_bounds name es (streamLen s name) s.nextCommit e he
  omega

theorem Reachable.nextCommit_le {s s' : Store} (h : Reachable s s') :
    s.nextCommit ≤ s'.nextCommit := by
  induction h with
  | refl => exact le_refl _
  | tail _ hstep ih => exact le_trans ih hstep.nextCommit_mono

theorem Reachable.log_extend {s s' : Store} (h : Reachable s s') :
    ∃ t, s'.log = s.log ++ t ∧ ∀ e ∈ t, s.nextCommit ≤ e.commit_position := by
  induction h with
  | refl => exact ⟨[], by simp⟩
  | tail hr hstep ih =>
      obtain ⟨t, hlog, hbound⟩ := ih
      obtain ⟨u, hlog', hbound'⟩ := hstep.log_grows
      refine ⟨t ++ u, by rw [hlog', hlog, List.append_assoc], fun e he => ?_⟩
      rcases List.mem_append.mp he with he | he
      · exact hbound e he
      · have hmid : Reachable s _ := hr
        exact le_trans hmid.nextCommit_le (hbound' e he).1

theorem Reachable.mem_log {s s' : Store} (h : Reachable s s')
    {e : RecordedEvent} (he : e ∈ s.log) : e ∈ s'.log := by
  obtain ⟨t, hlog, _⟩ := h.log_extend
  rw [hlog]
  exact List.mem_append_left _ he

/-! ### The store invariant -/

/-- Every recorded commit position is below the sequencer counter. -/
def commitsBounded (s : Store) : Prop :=
  ∀ e ∈ s.log, e.commit_position < s.nextCommit

/-- Commit positions are strictly increasing along the global log. -/
def commitsSorted (s : Store) : Prop :=
  List.Pairwise (· < ·) (s.log.map RecordedEvent.commit_position)

/-- Every stream's positions read `0, 1, ..., length-1` in commit order. -/
def streamPosOk (s : Store) : Prop :=
  ∀ name, (streamEvents s name).map RecordedEvent.stream_position
            = List.range (streamLen s name)

/-- The store invariant maintained by every successful append. -/
def WF (s : Store) : Prop :=
  commitsBounded s ∧ commitsSorted s ∧ streamPosOk s

theorem WF_init : WF Store.init := by
  refine ⟨?_, ?_, ?_⟩
  · intro e he; cases he
  · exact List.Pairwise.nil
  · intro name; rfl

theorem WF_step {s s' : Store} (hwf : WF s) (hstep : Step s s') : WF s' := by
  obtain ⟨hb, hsort, hpos⟩ := hwf
  rcases hstep with ⟨name, exp, es, cp, h⟩
  obtain ⟨hv, hm, hlog, hnc, hcp⟩ := append_ok h
  refine ⟨?_, ?_, ?_⟩
  · intro e he
    rw [hlog] at he
    rcases List.mem_append.mp he with he | he
    · have := hb e he
      omega
    · have := recordBatch_commit_bounds name es (streamLen s name) s.nextCommit e he
      omega
  · unfold commitsSorted
    rw [hlog, List.map_append, List.pairwise_append]
    refine ⟨hsort, ?_, ?_⟩
    · rw [recordBatch_map_commitPos]
      exact List.pairwise_lt_range' s.nextCommit es.length
    · intro a ha b hb'
      obtain ⟨ea, hea, rfl⟩ := List.mem_map.mp ha
      obtain ⟨eb, heb, rfl⟩ := List.mem_map.mp hb'
      have h1 := hb ea hea
      have h2 := (recordBatch_commit_bounds name es (streamLen s name) s.nextCommit eb heb).1
      omega
  · intro m
    by_cases hm' : m = name
    · subst hm'
      have hse := streamEvents_append_same h
      have hlen : streamLen s' m = streamLen s m + es.length := by
        unfold streamLen
        rw [hse, List.length_append, recordBatch_length]
      rw [hse, hlen, List.map_append, recordBatch_map_streamPos, hpos m,
          List.range_eq_range', List.range_eq_range']
      rw [Nat.add_comm (streamLen s m) es.length]
      simpa using List.range'_append_1 0 (streamLen s m) es.length
    · have hse := streamEvents_append_other h hm'
      have hlen : streamLen s' m = streamLen s m := by
        unfold streamLen
        rw [hse]
      rw [hse, hlen]
      exact hpos m

theorem WF_reachable_of {s s' : Store} (hwf : WF s) (h : Reachable s s') : WF s' := by
  induction h with
  | refl => exact hwf
  | tail _ hstep ih => exact WF_step ih hstep

theorem WF_reachable {s : Store} (h : Reachable Store.init s) : WF s :=
  WF_reachable_of WF_init h

/-! ### Subscription and consumption-loop lemmas -/

theorem subscribeFrom_none (s : Store) : subscribeFrom s none = s.log := by
  unfold subscribeFrom
  apply List.filter_eq_self.mpr
  intro e _
  rfl

theorem subscribeFrom_pairwise {s : Store} (h : Reachable Store.init s)
    (p : Option Nat) :
    List.Pairwise (· < ·) ((subscribeFrom s p).map RecordedEvent.commit_position) := by
  have hsub : List.Sublist ((subscribeFrom s p).map RecordedEvent.commit_position)
      (s.log.map RecordedEvent.commit_position) :=
    (List.filter_sublist _).map _
  exact List.Pairwise.sublist hsub (WF_reachable h).2.1

theorem subscribeFrom_extend {s s' : Store} (h2 : Reachable s s') (p : Option Nat) :
    ∃ t, subscribeFrom s' p = subscribeFrom s p ++ t
       ∧ ∀ e ∈ t, s.nextCommit ≤ e.commit_position := by
  obtain ⟨t, hlog, hbound⟩ := h2.log_extend
  refine ⟨t.filter (matchesFrom p), ?_, ?_⟩
  · unfold subscribeFrom
    rw [hlog, List.filter_append]
  · intro e he
    exact hbound e (List.mem_of_mem_filter he)

theorem takeUntilCommit_append (cp : Nat) (l m : List RecordedEvent)
    (h : ∀ e ∈ l, e.commit_position ≠ cp) :
    takeUntilCommit cp (l ++ m) = l ++ takeUntilCommit cp m := by
  induction l with
  | nil => rfl
  | cons e rest ih =>
      have hne : (e.commit_position == cp) = false :=
        beq_eq_false_iff_ne.mpr (h e (List.mem_cons_self e rest))
      have ih' := ih (fun x hx => h x (List.mem_cons_of_mem e hx))
      simp [takeUntilCommit, hne, ih']

theorem takeUntilCommit_found (cp : Nat) (x : RecordedEvent)
    (hx : x.commit_position = cp) (m : List RecordedEvent) :
    takeUntilCommit cp (x :: m) = [x] := by
  simp [takeUntilCommit, hx]

/-! ### The script's concrete run -/

theorem script_append1 (i1 i2 : Nat) :
    append_to_stream Store.init scriptStream StreamState.no_stream [e1 i1, e2 i2]
      = (scriptState1 i1 i2, Except.ok 1) := rfl

theorem script_append2 (i1 i2 i3 : Nat) :
    append_to_stream (scriptState1 i1 i2) scriptStream (StreamState.exact 1) [e3 i3]
      = (scriptState2 i1 i2 i3, Except.ok 2) := rfl

theorem reach_scriptState1 (i1 i2 : Nat) :
    Reachable Store.init (scriptState1 i1 i2) :=
  Relation.ReflTransGen.single
    (Step.append _ _ scriptStream StreamState.no_stream [e1 i1, e2 i2] 1
      (script_append1 i1 i2))

theorem reach_scriptState2_of1 (i1 i2 i3 : Nat) :
    Reachable (scriptState1 i1 i2) (scriptState2 i1 i2 i3) :=
  Relation.ReflTransGen.single
    (Step.append _ _ scriptStream (StreamState.exact 1) [e3 i3] 2
      (script_append2 i1 i2 i3))

theorem reach_scriptState2 (i1 i2 i3 : Nat) :
    Reachable Store.init (scriptState2 i1 i2 i3) :=
  (reach_scriptState1 i1 i2).trans (reach_scriptState2_of1 i1 i2 i3)

theorem append_snd_of_valid {s : Store} {name : String} {exp : StreamState}
    {es : List NewEvent} (hv : validBatch es = true) :
    (append_to_stream s name exp es).2
      = if versionMatches exp (currentVersion s name) = true
          then Except.ok (s.nextCommit + es.length - 1)
          else Except.error AppendError.ConcurrencyConflict := by
  unfold append_to_stream
  rw [if_pos hv]
  by_cases hm : versionMatches exp (currentVersion s name) = true
  · rw [if_pos hm, if_pos hm]
  · rw [if_neg hm, if_neg hm]

/-! ### The claims -/

/-- Claim C1: for every pair of successive successful `append_to_stream`
calls, anywhere in the store (on any streams, with any number of other
successful appends in between), the commit position returned by the later
call is strictly greater than the commit position returned by the earlier
call. -/
theorem C1_commit_positions_strictly_increase
    {sA sA' sB sB' : Store} {n1 n2 : String} {x1 x2 : StreamState}
    {es1 es2 : List NewEvent} {cp1 cp2 : Nat}
    (h1 : append_to_stream sA n1 x1 es1 = (sA', Except.ok cp1))
    (h2 : Reachable sA' sB)
    (h3 : append_to_stream sB n2 x2 es2 = (sB', Except.ok cp2)) :
    cp1 < cp2 := by
  obtain ⟨hv1, _, _, hnc1, hcp1⟩ := append_ok h1
  obtain ⟨hv2, _, _, hnc2, hcp2⟩ := append_ok h3
  have l1 := validBatch_length_pos hv1
  have l2 := validBatch_length_pos hv2
  have hmono := h2.nextCommit_le
  omega

/-- Witness for C1: the script's two appends return commit positions 1 and
2, and 1 < 2. -/
theorem C1_witness :
    append_to_stream Store.init scriptStream StreamState.no_stream [e1 1, e2 2]
      = (scriptState1 1 2, Except.ok 1)
  ∧ Reachable (scriptState1 1 2) (scriptState1 1 2)
  ∧ append_to_stream (scriptState1 1 2) scriptStream (StreamState.exact 1) [e3 3]
      = (scriptState2 1 2 3, Except.ok 2)
  ∧ (1 : Nat) < 2 :=
  ⟨script_append1 1 2, Relation.ReflTransGen.refl, script_append2 1 2 3,
   C1_commit_positions_strictly_increase (script_append1 1 2)
     Relation.ReflTransGen.refl (script_append2 1 2 3)⟩

/-- Claim C2: for every stream of any store reachable by successful appends,
the `stream_position` values of the stream's recorded events, taken in
commit order, are exactly `0 .. M-1` where `M` is the number of events of
the stream: no gaps and no repeats. -/
theorem C2_stream_positions_gapless {s : Store}
    (h : Reachable Store.init s) (name : String) :
    (streamEvents s name).map RecordedEvent.stream_position
      = List.range (streamLen s name) :=
  (WF_reachable h).2.2 name

/-- Witness for C2: after the script's two appends the stream's positions
are exactly `range 3 = [0, 1, 2]`. -/
theorem C2_witness :
    Reachable Store.init (scriptState2 1 2 3)
  ∧ (streamEvents (scriptState2 1 2 3) scriptStream).map RecordedEvent.stream_position
      = List.range (streamLen (scriptState2 1 2 3) scriptStream)
  ∧ (streamEvents (scriptState2 1 2 3) scriptStream).map RecordedEvent.stream_position
      = [0, 1, 2] :=
  ⟨reach_scriptState2 1 2 3,
   C2_stream_positions_gapless (reach_scriptState2 1 2 3) scriptStream,
   (C2_stream_positions_gapless (reach_scriptState2 1 2 3) scriptStream).trans (by decide)⟩

/-- Claim C3: for a well-formed batch, appending with
`expected_version = no_stream` to a stream that already has at least one
recorded event fails with `ConcurrencyConflict`; appending with the
stream's actual current version (and `no_stream` on a fresh stream)
succeeds; and in general the append fails with `ConcurrencyConflict`
exactly when an explicit or `no_stream` expected version differs from the
stream's actual current version at validation time. -/
theorem C3_conflict_iff_version_mismatch
    (s : Store) (name : String) (es : List NewEvent)
    (hv : validBatch es = true) :
    (currentVersion s name ≠ none →
        (append_to_stream s name StreamState.no_stream es).2
          = Except.error AppendError.ConcurrencyConflict)
  ∧ (∀ v, currentVersion s name = some v →
        (append_to_stream s name (StreamState.exact v) es).2
          = Except.ok (s.nextCommit + es.length - 1))
  ∧ (currentVersion s name = none →
        (append_to_stream s name StreamState.no_stream es).2
          = Except.ok (s.nextCommit + es.length - 1))
  ∧ (∀ exp, (append_to_stream s name exp es).2
          = Except.error AppendError.ConcurrencyConflict
        ↔ ((exp = StreamState.no_stream ∧ currentVersion s name ≠ none)
          ∨ ∃ v, exp = StreamState.exact v ∧ currentVersion s name ≠ some v)) := by
  refine ⟨?_, ?_, ?_, ?_⟩
  · intro hne
    rw [append_snd_of_valid hv, if_neg]
    simp only [versionMatches, beq_iff_eq]
    exact hne
  · intro v hval
    rw [append_snd_of_valid hv, if_pos]
    simp only [versionMatches, beq_iff_eq]
    exact hval
  · intro hval
    rw [append_snd_of_valid hv, if_pos]
    simp only [versionMatches, beq_iff_eq]
    exact hval
  · intro exp
    rw [append_snd_of_valid hv]
    cases exp with
    | no_stream =>
        by_cases hval : currentVersion s name = none
        · rw [if_pos (by simp only [versionMatches, beq_iff_eq]; exact hval)]
          simp [hval]
        · rw [if_neg (by simp only [versionMatches, beq_iff_eq]; exact hval)]
          simp [hval]
    | any =>
        rw [if_pos (by simp [versionMatches])]
        simp
    | exact v =>
        by_cases hval : currentVersion s name = some v
        · rw [if_pos (by simp only [versionMatches, beq_iff_eq]; exact hval)]
          simp [hval]
        · rw [if_neg (by simp only [versionMatches, beq_iff_eq]; exact hval)]
          simp
          exact hval

/-- Witness for C3: after the script's first append the stream has two
events (current version 1): `no_stream` then conflicts while version 1
succeeds with commit position 2. -/
theorem C3_witness :
    validBatch [e3 3] = true
  ∧ currentVersion (scriptState1 1 2) scriptStream ≠ none
  ∧ (append_to_stream (scriptState1 1 2) scriptStream StreamState.no_stream
        [e3 3]).2 = Except.error AppendError.ConcurrencyConflict
  ∧ currentVersion (scriptState1 1 2) scriptStream = some 1
  ∧ (append_to_stream (scriptState1 1 2) scriptStream (StreamState.exact 1)
        [e3 3]).2 = Except.ok ((scriptState1 1 2).nextCommit + [e3 3].length - 1) :=
  ⟨by decide, by decide,
   (C3_conflict_iff_version_mismatch (scriptState1 1 2) scriptStream [e3 3]
      (by decide)).1 (by decide),
   by decide,
   (C3_conflict_iff_version_mismatch (scriptState1 1 2) scriptStream [e3 3]
      (by decide)).2.1 1 (by decide)⟩

/-- Claim C4: for every reachable store, `read_stream` returns the stream's
recorded events in stream-position order `0 .. M-1` as a finite sequence,
and a successful append extends the read result by exactly the appended
batch, with each event's `id`, `type` and `data` equal to the values
supplied at append time. -/
theorem C4_read_stream_faithful {s : Store}
    (h : Reachable Store.init s) (name : String) :
    ((read_stream s name).map RecordedEvent.stream_position
        = List.range (streamLen s name))
  ∧ (∀ exp es s' cp, append_to_stream s name exp es = (s', Except.ok cp) →
      (read_stream s' name).map (fun e => (e.id, e.type, e.data))
        = (read_stream s name).map (fun e => (e.id, e.type, e.data))
            ++ es.map (fun e => (e.id, e.type, e.data))) := by
  refine ⟨(WF_reachable h).2.2 name, ?_⟩
  intro exp es s' cp hap
  unfold read_stream
  rw [streamEvents_append_same hap, List.map_append, recordBatch_map_payload]

/-- Witness for C4: the script's read sees stream positions `[0, 1]` after
the first append, and the second append extends the read result by exactly
the third event's payload. -/
theorem C4_witness :
    Reachable Store.init (scriptState1 1 2)
  ∧ (read_stream (scriptState1 1 2) scriptStream).map RecordedEvent.stream_position
      = List.range (streamLen (scriptState1 1 2) scriptStream)
  ∧ (read_stream (scriptState2 1 2 3) scriptStream).map (fun e => (e.id, e.type, e.data))
      = (read_stream (scriptState1 1 2) scriptStream).map (fun e => (e.id, e.type, e.data))
          ++ [e3 3].map (fun e => (e.id, e.type, e.data)) :=
  ⟨reach_scriptState1 1 2,
   (C4_read_stream_faithful (reach_scriptState1 1 2) scriptStream).1,
   (C4_read_stream_faithful (reach_scriptState1 1 2) scriptStream).2
     (StreamState.exact 1) [e3 3] (scriptState2 1 2 3) 2 (script_append2 1 2 3)⟩

/-- Claim C5: the value returned by a successful append equals the
`commit_position` of the last event of the recorded batch, and that event
is observable via `read_stream` and (at every later reachable state) via a
from-the-start subscription. -/
theorem C5_returned_position_is_last_of_batch
    {s s' : Store} {name : String} {exp : StreamState} {es : List NewEvent}
    {cp : Nat}
    (h : append_to_stream s name exp es = (s', Except.ok cp)) :
    ((recordBatch name es (streamLen s name) s.nextCommit).getLast?).map
        RecordedEvent.commit_position = some cp
  ∧ ∀ e, (recordBatch name es (streamLen s name) s.nextCommit).getLast? = some e →
      e ∈ read_stream s' name
    ∧ ∀ s'', Reachable s' s'' → e ∈ subscribe_to_all s'' := by
  obtain ⟨hv, hm, hlog, hnc, hcp⟩ := append_ok h
  have hlen := validBatch_length_pos hv
  constructor
  · rw [recordBatch_getLast_commit, if_neg (by omega), hcp]
  · intro e he
    have hmem : e ∈ recordBatch name es (streamLen s name) s.nextCommit :=
      List.mem_of_getLast?_eq_some he
    constructor
    · unfold read_stream
      rw [streamEvents_append_same h]
      exact List.mem_append_right _ hmem
    · intro s'' hr
      unfold subscribe_to_all
      rw [subscribeFrom_none]
      apply hr.mem_log
      rw [hlog]
      exact List.mem_append_right _ hmem

/-- Witness for C5: the script's first append returns 1, the commit
position of the second event of its batch, and that event is then read
back and delivered by the subscription. -/
theorem C5_witness :
    append_to_stream Store.init scriptStream StreamState.no_stream [e1 1, e2 2]
      = (scriptState1 1 2, Except.ok 1)
  ∧ ((recordBatch scriptStream [e1 1, e2 2]
        (streamLen Store.init scriptStream) Store.init.nextCommit).getLast?).map
        RecordedEvent.commit_position = some 1 :=
  ⟨script_append1 1 2,
   (C5_returned_position_is_last_of_batch (script_append1 1 2)).1⟩

/-- Claim C8: a failed append (whether `ConcurrencyConflict` or
`InvalidRequest`) leaves the store exactly as if the append had never
happened: the resulting store is the old one, so every stream's current
version and the global commit-position counter are unchanged. -/
theorem C8_failed_append_no_side_effects
    {s : Store} {name : String} {exp : StreamState} {es : List NewEvent}
    (h : ((append_to_stream s name exp es).2).isOk = false) :
    (append_to_stream s name exp es).1 = s
  ∧ (∀ m, currentVersion ((append_to_stream s name exp es).1) m = currentVersion s m)
  ∧ ((append_to_stream s name exp es).1).nextCommit = s.nextCommit := by
  have he := append_fail_eq h
  exact ⟨he, fun m => by rw [he], by rw [he]⟩

/-- Witness for C8: appending with `no_stream` to the script's existing
stream fails (a `ConcurrencyConflict`), and appending an empty batch fails
(an `InvalidRequest`); both leave the store untouched. -/
theorem C8_witness :
    ((append_to_stream (scriptState1 1 2) scriptStream StreamState.no_stream
        [e3 3]).2).isOk = false
  ∧ (append_to_stream (scriptState1 1 2) scriptStream StreamState.no_stream
        [e3 3]).1 = scriptState1 1 2
  ∧ ((append_to_stream Store.init scriptStream StreamState.any []).2).isOk = false
  ∧ (append_to_stream Store.init scriptStream StreamState.any []).1 = Store.init :=
  ⟨rfl,
   (@C8_failed_append_no_side_effects (scriptState1 1 2) scriptStream
     StreamState.no_stream [e3 3] rfl).1,
   rfl,
   (@C8_failed_append_no_side_effects Store.init scriptStream
     StreamState.any [] rfl).1⟩

/-- Claim C6: a subscriber started from any position observes events in
strictly increasing `commit_position` order with no duplicates, observes
every committed event past its starting position (no gaps, no skips), and
the delivery at any later state extends the backlog delivered at subscribe
time by live events only (none re-delivered across the transition). -/
theorem C6_subscription_gapless_ordered
    {s s' : Store} (h : Reachable Store.init s) (h2 : Reachable s s')
    (p : Option Nat) :
    List.Pairwise (· < ·) ((subscribeFrom s' p).map RecordedEvent.commit_position)
  ∧ (∀ e ∈ s'.log, matchesFrom p e = true → e ∈ subscribeFrom s' p)
  ∧ (∃ live, subscribeFrom s' p = subscribeFrom s p ++ live
        ∧ ∀ e ∈ live, s.nextCommit ≤ e.commit_position) := by
  refine ⟨subscribeFrom_pairwise (h.trans h2) p, ?_, subscribeFrom_extend h2 p⟩
  intro e he hm
  exact List.mem_filter.mpr ⟨he, hm⟩

/-- Witness for C6: a subscription from the start observes the three script
events with strictly increasing commit positions. -/
theorem C6_witness :
    Reachable Store.init (scriptState1 1 2)
  ∧ Reachable (scriptState1 1 2) (scriptState2 1 2 3)
  ∧ List.Pairwise (· < ·)
      ((subscribeFrom (scriptState2 1 2 3) none).map RecordedEvent.commit_position) :=
  ⟨reach_scriptState1 1 2, reach_scriptState2_of1 1 2 3,
   (C6_subscription_gapless_ordered (reach_scriptState1 1 2)
      (reach_scriptState2_of1 1 2 3) none).1⟩

/-- Claim C7: a subscription started from commit position `p` delivers
exactly the events with `commit_position > p` (resumption is exclusive of
`p`), in strictly increasing commit order with no gaps, and after a
disconnect and reconnect at a later state the delivery only extends what
was delivered before. -/
theorem C7_resume_exclusive
    {s s' : Store} (h : Reachable Store.init s) (h2 : Reachable s s')
    (p : Nat) :
    (∀ e, e ∈ subscribeFrom s' (some p) ↔ e ∈ s'.log ∧ p < e.commit_position)
  ∧ List.Pairwise (· < ·)
      ((subscribeFrom s' (some p)).map RecordedEvent.commit_position)
  ∧ (∃ t, subscribeFrom s' (some p) = subscribeFrom s (some p) ++ t) := by
  refine ⟨?_, subscribeFrom_pairwise (h.trans h2) (some p), ?_⟩
  · intro e
    unfold subscribeFrom
    rw [List.mem_filter]
    constructor
    · rintro ⟨hmem, hm⟩
      exact ⟨hmem, of_decide_eq_true hm⟩
    · rintro ⟨hmem, hm⟩
      exact ⟨hmem, decide_eq_true hm⟩
  · obtain ⟨t, ht, _⟩ := subscribeFrom_extend h2 (some p)
    exact ⟨t, ht⟩

/-- The script's third event as recorded by the store (commit position 2). -/
def rec3 : RecordedEvent :=
  { id := 3, type := "OrderCancelled", data := data2, stream_name := scriptStream,
    stream_position := 2, commit_position := 2 }

/-- Witness for C7: resuming from commit position 1 delivers the third
recorded event, which is in the log with commit position `2 > 1`. -/
theorem C7_witness :
    Reachable Store.init (scriptState1 1 2)
  ∧ Reachable (scriptState1 1 2) (scriptState2 1 2 3)
  ∧ (rec3 ∈ subscribeFrom (scriptState2 1 2 3) (some 1)
      ↔ rec3 ∈ (scriptState2 1 2 3).log ∧ 1 < rec3.commit_position) :=
  ⟨reach_scriptState1 1 2, reach_scriptState2_of1 1 2 3,
   (C7_resume_exclusive (reach_scriptState1 1 2)
      (reach_scriptState2_of1 1 2 3) 1).1 rec3⟩

/-- Claim C9: `subscribe_to_all()` with no starting position delivers the
whole log, beginning from the very first event ever committed (not from
the current end); in the script's run the second append returns commit
position 2 and the consumption loop, breaking at that position, therefore
terminates having received every event. -/
theorem C9_subscribe_from_start (i1 i2 i3 : Nat) :
    (∀ s : Store, subscribe_to_all s = s.log)
  ∧ (append_to_stream (scriptState1 i1 i2) scriptStream (StreamState.exact 1)
        [e3 i3]).2 = Except.ok 2
  ∧ (scriptState2 i1 i2 i3).log.map RecordedEvent.commit_position = [0, 1, 2]
  ∧ takeUntilCommit 2 (subscribe_to_all (scriptState2 i1 i2 i3))
      = (scriptState2 i1 i2 i3).log :=
  ⟨fun s => subscribeFrom_none s, rfl, rfl, rfl⟩

/-- Claim C10: if nothing is committed between or after the script's two
batches (up to the second returned commit position), the events received
when the loop breaks at that position are the prior log followed by
exactly the three appended events, in submission order, with matching ids,
types and payloads. -/
theorem C10_no_interleaving_last_three
    {s0 s1 s2 : Store} {cp1 cp2 : Nat} (i1 i2 i3 : Nat) (name : String)
    (h0 : Reachable Store.init s0)
    (h1 : append_to_stream s0 name StreamState.no_stream [e1 i1, e2 i2]
            = (s1, Except.ok cp1))
    (h2 : append_to_stream s1 name (StreamState.exact 1) [e3 i3]
            = (s2, Except.ok cp2)) :
    (takeUntilCommit cp2 (subscribe_to_all s2)).length = s0.log.length + 3
  ∧ ((takeUntilCommit cp2 (subscribe_to_all s2)).drop s0.log.length).map
        (fun e => (e.id, e.type, e.data))
      = [(i1, "OrderCreated", data1), (i2, "OrderSubmitted", data2),
         (i3, "OrderCancelled", data2)] := by
  obtain ⟨hv1, hm1, hlog1, hnc1, hcp1⟩ := append_ok h1
  obtain ⟨hv2, hm2, hlog2, hnc2, hcp2⟩ := append_ok h2
  simp only [List.length_cons, List.length_nil] at hnc1 hcp1 hnc2 hcp2
  have hbound : ∀ e ∈ s0.log, e.commit_position < s0.nextCommit :=
    (WF_reachable h0).1
  have hx : recordBatch name [e3 i3] (streamLen s1 name) s1.nextCommit
      = [{ id := i3, type := "OrderCancelled", data := data2, stream_name := name,
           stream_position := streamLen s1 name,
           commit_position := s1.nextCommit }] := rfl
  have hsub : subscribe_to_all s2 = s2.log := subscribeFrom_none s2
  have hne : ∀ e ∈ s0.log
        ++ recordBatch name [e1 i1, e2 i2] (streamLen s0 name) s0.nextCommit,
      e.commit_position ≠ cp2 := by
    intro e he
    rcases List.mem_append.mp he with he | he
    · have := hbound e he
      omega
    · have := recordBatch_commit_bounds name [e1 i1, e2 i2]
        (streamLen s0 name) s0.nextCommit e he
      simp only [List.length_cons, List.length_nil] at this
      omega
  have htake : takeUntilCommit cp2 (subscribe_to_all s2)
      = (s0.log ++ recordBatch name [e1 i1, e2 i2] (streamLen s0 name) s0.nextCommit)
        ++ [{ id := i3, type := "OrderCancelled", data := data2, stream_name := name,
              stream_position := streamLen s1 name,
              commit_position := s1.nextCommit }] := by
    rw [hsub, hlog2, hlog1, hx, takeUntilCommit_append cp2 _ _ hne,
        takeUntilCommit_found cp2 _ (by show s1.nextCommit = cp2; omega) []]
  constructor
  · rw [htake]
    simp only [List.length_append, List.length_cons, List.length_nil,
      recordBatch_length]
  · rw [htake, List.append_assoc, List.drop_left, List.map_append,
        recordBatch_map_payload]
    rfl

/-- Witness for C10: running the script's two appends on the empty store,
the loop's received events are exactly the three appended events in
submission order. -/
theorem C10_witness :
    Reachable Store.init Store.init
  ∧ append_to_stream Store.init scriptStream StreamState.no_stream [e1 1, e2 2]
      = (scriptState1 1 2, Except.ok 1)
  ∧ append_to_stream (scriptState1 1 2) scriptStream (StreamState.exact 1) [e3 3]
      = (scriptState2 1 2 3, Except.ok 2)
  ∧ (takeUntilCommit 2 (subscribe_to_all (scriptState2 1 2 3))).length
      = Store.init.log.length + 3
  ∧ ((takeUntilCommit 2 (subscribe_to_all (scriptState2 1 2 3))).drop
        Store.init.log.length).map (fun e => (e.id, e.type, e.data))
      = [(1, "OrderCreated", data1), (2, "OrderSubmitted", data2),
         (3, "OrderCancelled", data2)] :=
  ⟨Relation.ReflTransGen.refl, script_append1 1 2, script_append2 1 2 3,
   (C10_no_interleaving_last_three 1 2 3 scriptStream Relation.ReflTransGen.refl
      (script_append1 1 2) (script_append2 1 2 3)).1,
   (C10_no_interleaving_last_three 1 2 3 scriptStream Relation.ReflTransGen.refl
      (script_append1 1 2) (script_append2 1 2 3)).2⟩

end EventStore
